import Mathlib

/-!
Shallow embedding of the PlacementTracker core pipeline (PoMails.js and
public/app.js): the text normalizer, the regex-table field extractor with
its interview-support section isolator, and the frontend grouping /
deduplication / support-statistics aggregation.  Strings are modelled as
Lean strings (lists of characters); JavaScript regular-expression
matching is modelled by a small backtracking engine whose nondeterminism
list reproduces the JS leftmost-first, greedy/lazy, lookahead search
order for the pattern constructs the source uses.  Dates are modelled
assuming a UTC environment and an en-US locale for month names.
-/

namespace PlacementTracker

/-- The set of characters matched by the JavaScript regex whitespace
class (and trimmed by String.prototype.trim). -/
def jsWhitespace (c : Char) : Bool :=
  c = ' ' || c = '\t' || c = '\n' || c = '\x0b' || c = '\x0c' || c = '\r' ||
  c.toNat = 0xa0 || c.toNat = 0x1680 ||
  (0x2000 ≤ c.toNat && c.toNat ≤ 0x200a) ||
  c.toNat = 0x2028 || c.toNat = 0x2029 || c.toNat = 0x202f ||
  c.toNat = 0x205f || c.toNat = 0x3000 || c.toNat = 0xfeff

/-- The non-breaking-space character replaced by the normalizer. -/
def nbspChar : Char := Char.ofNat 0xa0

/-- Global replacement of each maximal whitespace run by a single space
(the replace of one-or-more whitespace by a space); the flag records
whether we are inside a run whose space has already been emitted. -/
def collapseWsAux : Bool → List Char → List Char
  | _, [] => []
  | true, c :: rest =>
    if jsWhitespace c then collapseWsAux true rest
    else c :: collapseWsAux false rest
  | false, c :: rest =>
    if jsWhitespace c then ' ' :: collapseWsAux true rest
    else c :: collapseWsAux false rest

/-- Collapse every maximal whitespace run to one space character. -/
def collapseWs (l : List Char) : List Char := collapseWsAux false l

/-- JS String.prototype.trim on a character list. -/
def jsTrimList (l : List Char) : List Char :=
  ((l.dropWhile (fun d => jsWhitespace d)).reverse.dropWhile
    (fun d => jsWhitespace d)).reverse

/-- The normalizer body on character lists: replace the non-breaking
space by a space, collapse whitespace runs, trim. -/
def normalizeList (l : List Char) : List Char :=
  jsTrimList (collapseWs (l.map (fun c => if c = nbspChar then ' ' else c)))

/-- normalizeText from PoMails.js: String(text), replace the
non-breaking space by a space, collapse whitespace runs to single
spaces, trim both ends. -/
def normalizeText (s : String) : String := ⟨normalizeList s.data⟩

/-! Normal-form characterization used for the idempotence proof: in the
output of the normalizer every whitespace character is a plain space, no
two adjacent characters are both whitespace, and the first and last
characters are not whitespace. -/

/-- Every whitespace character of the list is a plain space. -/
def OnlyPlainSpaces (l : List Char) : Prop :=
  ∀ c ∈ l, jsWhitespace c = true → c = ' '

/-- No two adjacent characters are both whitespace. -/
def NoWsPair (l : List Char) : Prop :=
  l.Chain' (fun a b => jsWhitespace a = false ∨ jsWhitespace b = false)

/-- Neither end of the list is a whitespace character. -/
def EndsNotWs (l : List Char) : Prop :=
  (∀ c, l.head? = some c → jsWhitespace c = false) ∧
  (∀ c, l.getLast? = some c → jsWhitespace c = false)

theorem onlyPlainSpaces_collapseWsAux (l : List Char) :
    ∀ b, OnlyPlainSpaces (collapseWsAux b l) := by
  induction l with
  | nil => intro b c hc; simp [collapseWsAux] at hc
  | cons c rest ih =>
    intro b d hd hws
    by_cases h : jsWhitespace c = true
    · cases b with
      | true =>
        rw [collapseWsAux, if_pos h] at hd
        exact ih true d hd hws
      | false =>
        rw [collapseWsAux, if_pos h] at hd
        rcases List.mem_cons.mp hd with h1 | h2
        · exact h1
        · exact ih true d h2 hws
    · cases b with
      | true =>
        rw [collapseWsAux, if_neg h] at hd
        rcases List.mem_cons.mp hd with h1 | h2
        · exact absurd (h1 ▸ hws) h
        · exact ih false d h2 hws
      | false =>
        rw [collapseWsAux, if_neg h] at hd
        rcases List.mem_cons.mp hd with h1 | h2
        · exact absurd (h1 ▸ hws) h
        · exact ih false d h2 hws

/-- After the space of a run has been emitted the next emitted character
is not whitespace. -/
theorem head_collapseWsAux_true (l : List Char) (c : Char)
    (hc : (collapseWsAux true l).head? = some c) : jsWhitespace c = false := by
  induction l with
  | nil => simp [collapseWsAux] at hc
  | cons d rest ih =>
    by_cases h : jsWhitespace d = true
    · rw [collapseWsAux, if_pos h] at hc
      exact ih hc
    · rw [collapseWsAux, if_neg h] at hc
      simp at hc
      exact hc ▸ (Bool.not_eq_true _ ▸ h)

theorem noWsPair_collapseWsAux (l : List Char) :
    ∀ b, NoWsPair (collapseWsAux b l) := by
  induction l with
  | nil => intro b; simp [collapseWsAux, NoWsPair]
  | cons c rest ih =>
    intro b
    by_cases h : jsWhitespace c = true
    · cases b with
      | true => rw [NoWsPair, collapseWsAux, if_pos h]; exact ih true
      | false =>
        rw [NoWsPair, collapseWsAux, if_pos h]
        refine List.chain'_cons'.mpr ⟨?_, ih true⟩
        intro y hy
        exact Or.inr (head_collapseWsAux_true rest y hy)
    · cases b with
      | true =>
        rw [NoWsPair, collapseWsAux, if_neg h]
        refine List.chain'_cons'.mpr ⟨?_, ih false⟩
        intro y _
        exact Or.inl (Bool.not_eq_true _ ▸ h)
      | false =>
        rw [NoWsPair, collapseWsAux, if_neg h]
        refine List.chain'_cons'.mpr ⟨?_, ih false⟩
        intro y _
        exact Or.inl (Bool.not_eq_true _ ▸ h)

/-- The trimmed list is an infix of the original list. -/
theorem jsTrimList_isInfix (l : List Char) : jsTrimList l <:+: l := by
  have h1 : l.dropWhile (fun d => jsWhitespace d) <:+ l :=
    List.dropWhile_suffix _
  have h2 : ((l.dropWhile (fun d => jsWhitespace d)).reverse.dropWhile
      (fun d => jsWhitespace d)).reverse <+:
      l.dropWhile (fun d => jsWhitespace d) := by
    rw [← List.reverse_suffix, List.reverse_reverse]
    exact List.dropWhile_suffix _
  exact h2.isInfix.trans h1.isInfix

theorem onlyPlainSpaces_of_infix {l m : List Char} (h : m <:+: l)
    (hl : OnlyPlainSpaces l) : OnlyPlainSpaces m := by
  intro c hc hws
  exact hl c (h.subset hc) hws

theorem noWsPair_of_infix {l m : List Char} (h : m <:+: l)
    (hl : NoWsPair l) : NoWsPair m := hl.infix h

/-- The head of a dropWhile output fails the predicate. -/
theorem head_dropWhile_false {p : Char → Bool} {l : List Char} {c : Char}
    (hc : (l.dropWhile p).head? = some c) : p c = false := by
  induction l with
  | nil => simp [List.dropWhile] at hc
  | cons d rest ih =>
    by_cases h : p d = true
    · rw [List.dropWhile_cons, if_pos h] at hc
      exact ih hc
    · rw [List.dropWhile_cons, if_neg h] at hc
      simp at hc
      exact hc ▸ (Bool.not_eq_true _ ▸ h)

theorem endsNotWs_jsTrimList (l : List Char) : EndsNotWs (jsTrimList l) := by
  constructor
  · intro c hc
    rw [jsTrimList, List.head?_reverse] at hc
    -- the getLast of the right dropWhile equals the getLast of the whole
    -- reversed left-trim, which is the head of the left trim
    obtain ⟨pre, hpre⟩ : (l.dropWhile (fun d => jsWhitespace d)).reverse.dropWhile
        (fun d => jsWhitespace d) <:+
        (l.dropWhile (fun d => jsWhitespace d)).reverse :=
      List.dropWhile_suffix _
    have hlast : ((l.dropWhile (fun d => jsWhitespace d)).reverse).getLast?
        = some c := by
      rw [← hpre, List.getLast?_append, hc]; rfl
    rw [List.getLast?_reverse] at hlast
    exact head_dropWhile_false hlast
  · intro c hc
    rw [jsTrimList, List.getLast?_reverse] at hc
    exact head_dropWhile_false hc

/-! Fixed-point lemmas: on a list in normal form each normalizer stage
is the identity. -/

theorem map_nbsp_fixed {l : List Char} (h : OnlyPlainSpaces l) :
    l.map (fun c => if c = nbspChar then ' ' else c) = l := by
  have : ∀ c ∈ l, (fun c => if c = nbspChar then ' ' else c) c = id c := by
    intro c hc
    by_cases hn : c = nbspChar
    · exfalso
      have hws : jsWhitespace c = true := by rw [hn]; decide
      have := h c hc hws
      rw [hn] at this
      exact absurd this (by decide)
    · simp [hn]
  rw [List.map_congr_left this, List.map_id]

theorem collapseWs_fixed {l : List Char} (h1 : OnlyPlainSpaces l)
    (h2 : NoWsPair l) : collapseWs l = l := by
  rw [collapseWs]
  induction l with
  | nil => rfl
  | cons c rest ih =>
    by_cases h : jsWhitespace c = true
    · rw [collapseWsAux, if_pos h]
      have hc : c = ' ' := h1 c (List.mem_cons_self _ _) h
      have htail : collapseWsAux true rest = collapseWsAux false rest := by
        cases rest with
        | nil => rfl
        | cons d rest2 =>
          have hpair := (List.chain'_cons.mp h2).1
          rcases hpair with hl | hr
          · exact absurd h (by simp [hl])
          · rw [collapseWsAux, if_neg (by simp [hr]), collapseWsAux,
              if_neg (by simp [hr])]
      rw [hc, htail,
        ih (fun d hd => h1 d (List.mem_cons_of_mem _ hd)) h2.tail]
    · rw [collapseWsAux, if_neg h,
        ih (fun d hd => h1 d (List.mem_cons_of_mem _ hd)) h2.tail]

theorem dropWhile_eq_self_of_head {l : List Char}
    (h : ∀ c, l.head? = some c → jsWhitespace c = false) :
    l.dropWhile (fun d => jsWhitespace d) = l := by
  cases l with
  | nil => rfl
  | cons c rest =>
    rw [List.dropWhile_cons, if_neg (by simp [h c rfl])]

theorem jsTrimList_fixed {l : List Char} (h : EndsNotWs l) :
    jsTrimList l = l := by
  rw [jsTrimList, dropWhile_eq_self_of_head h.1]
  have hrev : ∀ c, l.reverse.head? = some c → jsWhitespace c = false := by
    intro c hc
    rw [List.head?_reverse] at hc
    exact h.2 c hc
  rw [dropWhile_eq_self_of_head hrev, List.reverse_reverse]

/-- The normalizer output is in normal form. -/
theorem normalizeList_normal (l : List Char) :
    OnlyPlainSpaces (normalizeList l) ∧ NoWsPair (normalizeList l) ∧
      EndsNotWs (normalizeList l) := by
  refine ⟨?_, ?_, ?_⟩
  · exact onlyPlainSpaces_of_infix (jsTrimList_isInfix _)
      (onlyPlainSpaces_collapseWsAux _ false)
  · exact noWsPair_of_infix (jsTrimList_isInfix _)
      (noWsPair_collapseWsAux _ false)
  · exact endsNotWs_jsTrimList _

/-- Normalizing a list already in the image of the normalizer leaves it
unchanged. -/
theorem normalizeList_idem (l : List Char) :
    normalizeList (normalizeList l) = normalizeList l := by
  obtain ⟨h1, h2, h3⟩ := normalizeList_normal l
  rw [normalizeList, map_nbsp_fixed h1, collapseWs_fixed h1 h2,
    jsTrimList_fixed h3]


/-! ## A backtracking regex engine

The engine covers exactly the constructs the source patterns use:
character classes, case-insensitive literals, sequencing, alternation,
greedy and lazy counted repetition of a character class, positive
lookahead, the begin and end anchors, and a single capture group.  The
nondeterminism list enumerates outcomes in the JavaScript backtracking
priority order (alternation left first, greedy longest first, lazy
shortest first), so the head of the list at the leftmost matching start
position is the JS match. -/

inductive Rx where
  | eps : Rx
  | ch (p : Char → Bool) : Rx
  | seq (a b : Rx) : Rx
  | alt (a b : Rx) : Rx
  | repG (p : Char → Bool) (lo : Nat) (hi : Option Nat) : Rx
  | repL (p : Char → Bool) (lo : Nat) : Rx
  | look (r : Rx) : Rx
  | bos : Rx
  | eos : Rx
  | grp (r : Rx) : Rx

/-- The stops of a character-class run at a position: the position and
remaining suffix after consuming 0, 1, up to the maximal run of class
characters, in ascending order of consumed count. -/
def classStops (p : Char → Bool) : Nat → List Char → List (Nat × List Char)
  | i, [] => [(i, [])]
  | i, c :: rest =>
    (i, c :: rest) :: (if p c then classStops p (i + 1) rest else [])

/-- All outcomes of matching r at a position (with its remaining
suffix), in JS backtracking priority order.  An outcome is the end
position, the suffix remaining there, and the span of the capture group
when it participated. -/
def runFrom : Rx → Nat → List Char → List (Nat × List Char × Option (Nat × Nat))
  | .eps, i, rem => [(i, rem, none)]
  | .ch p, i, rem =>
    match rem with
    | c :: rest => if p c then [(i + 1, rest, none)] else []
    | [] => []
  | .seq a b, i, rem =>
    (runFrom a i rem).flatMap (fun o1 =>
      (runFrom b o1.1 o1.2.1).map
        (fun o2 => (o2.1, o2.2.1, o1.2.2.orElse (fun _ => o2.2.2))))
  | .alt a b, i, rem => runFrom a i rem ++ runFrom b i rem
  | .repG p lo hi, i, rem =>
    let st := classStops p i rem
    let bounded := match hi with
      | none => st
      | some h => st.take (h + 1)
    (bounded.reverse.filter (fun o => lo + i ≤ o.1)).map
      (fun o => (o.1, o.2, none))
  | .repL p lo, i, rem =>
    ((classStops p i rem).drop lo).map (fun o => (o.1, o.2, none))
  | .look r, i, rem => if (runFrom r i rem).isEmpty then [] else [(i, rem, none)]
  | .bos, i, rem => if i = 0 then [(i, rem, none)] else []
  | .eos, i, rem => if rem.isEmpty then [(i, rem, none)] else []
  | .grp r, i, rem => (runFrom r i rem).map (fun o => (o.1, o.2.1, some (i, o.1)))

/-- Scan start positions left to right; at the first position with a
match return the highest-priority outcome capture span. -/
def searchAux (r : Rx) : Nat → Nat → List Char → Option (Option (Nat × Nat))
  | 0, _, _ => none
  | fuel + 1, i, rem =>
    match runFrom r i rem with
    | o :: _ => some o.2.2
    | [] =>
      match rem with
      | _ :: rest => searchAux r fuel (i + 1) rest
      | [] => none

/-- JS String.prototype.match without the g flag: leftmost match, with
the capture span of group one. -/
def searchRx (r : Rx) (s : List Char) : Option (Option (Nat × Nat)) :=
  searchAux r (s.length + 1) 0 s

/-- The characters of s in positions [a, b). -/
def sliceStr (s : List Char) (a b : Nat) : List Char := (s.take b).drop a

/-- The find helper of extractPoDetails: match the pattern against the
source and return the trimmed first capture group, or null. -/
def findIn (r : Rx) (src : List Char) : Option String :=
  match searchRx r src with
  | some (some (a, b)) => some ⟨jsTrimList (sliceStr src a b)⟩
  | _ => none

/-! Character classes and literals of the source patterns. -/

/-- ASCII lower-casing, the canonicalization relevant to the
case-insensitive flag on the ASCII literals of the source patterns. -/
def lowerAscii (c : Char) : Char :=
  if 'A' ≤ c && c ≤ 'Z' then Char.ofNat (c.toNat + 32) else c

/-- A case-insensitive literal character. -/
def ciCh (c : Char) : Rx := .ch (fun d => lowerAscii d == lowerAscii c)

/-- An exact literal character. -/
def exCh (c : Char) : Rx := .ch (fun d => d == c)

/-- A case-insensitive literal string. -/
def lit (str : String) : Rx :=
  str.data.foldr (fun c acc => .seq (ciCh c) acc) .eps

def isAsciiLetter (c : Char) : Bool :=
  ('A' ≤ c && c ≤ 'Z') || ('a' ≤ c && c ≤ 'z')

def isDigitCh (c : Char) : Bool := '0' ≤ c && c ≤ '9'

/-- The JS dot without the dotAll flag: any character except a line
terminator. -/
def dotAny (c : Char) : Bool :=
  !(c = '\n' || c = '\r' || c.toNat = 0x2028 || c.toNat = 0x2029)

/-- Class of the candidate-name and interview-section name captures:
ASCII letters and whitespace. -/
def nameCls (c : Char) : Bool := isAsciiLetter c || jsWhitespace c

/-- Class of the phone-number capture. -/
def phoneCls (c : Char) : Bool :=
  c = '+' || isDigitCh c || c = '(' || c = ')' || c = '-' || c = '.' ||
    jsWhitespace c

/-- Class of the email local part. -/
def emailLocalCls (c : Char) : Bool :=
  isAsciiLetter c || isDigitCh c || c = '.' || c = '_' || c = '%' ||
    c = '+' || c = '-'

/-- Class of the email domain part. -/
def emailDomainCls (c : Char) : Bool :=
  isAsciiLetter c || isDigitCh c || c = '.' || c = '-'

/-- Class of the rate capture. -/
def rateCls (c : Char) : Bool :=
  isDigitCh c || c = ',' || c = '.' || c = '/' || jsWhitespace c ||
    isAsciiLetter c

/-- Greedy whitespace star. -/
def wsStar : Rx := .repG jsWhitespace 0 none

/-- Greedy whitespace plus. -/
def wsPlus : Rx := .repG jsWhitespace 1 none

/-! The field patterns of extractPoDetails, one per table row. -/

def candidateNameRx : Rx :=
  .seq (lit "Name of Candidate:") (.seq wsStar
    (.seq (.grp (.repL nameCls 1))
      (.seq wsPlus
        (.look (.alt (lit "SST") (.alt (lit "Location") (lit "PO")))))))

def phoneNumberRx : Rx :=
  .seq (lit "Personal Phone Number") (.seq wsStar
    (.grp (.repG phoneCls 1 none)))

def emailRx : Rx :=
  .seq (lit "Email ID") (.seq wsStar
    (.grp (.seq (.repG emailLocalCls 1 none)
      (.seq (exCh '@')
        (.seq (.repG emailDomainCls 1 none)
          (.seq (exCh '.') (.repG isAsciiLetter 2 none)))))))

def locationRx : Rx :=
  .seq (lit "Location") (.seq wsStar (.grp (.repG isAsciiLetter 2 (some 3))))

def positionAppliedRx : Rx :=
  .seq (lit "Position that Applied:") (.seq wsStar
    (.seq (.grp (.repL dotAny 1))
      (.look (.seq wsPlus (lit "Job Location")))))

def jobLocationRx : Rx :=
  .seq (lit "Job Location:") (.seq wsStar
    (.seq (.grp (.repL dotAny 1))
      (.look (.seq wsPlus (lit "Implementation/End Client")))))

def endClientRx : Rx :=
  .seq (lit "Implementation/End Client") (.seq wsStar
    (.seq (.grp (.repL dotAny 1))
      (.look (.alt (.seq wsPlus (lit "Vendor Details"))
        (.seq wsPlus (lit "Rate:"))))))

def rateRx : Rx :=
  .seq (lit "Rate:") (.seq wsStar
    (.seq (.repG (fun d => d == '$') 0 (some 1))
      (.grp (.repG rateCls 1 none))))

/-- The section isolator pattern: from Interview Support, Support by up
to Marketing Application, Thanks, or end of text. -/
def interviewRx : Rx :=
  .seq (lit "Interview Support") (.seq wsStar
    (.seq (lit "Support by") (.seq wsStar
      (.seq (.grp (.repL dotAny 1))
        (.look (.alt (.seq wsPlus (lit "Marketing Application"))
          (.alt (.seq wsPlus (lit "Thanks")) .eos)))))))

def interviewSupportByRx : Rx :=
  .seq .bos (.seq (.grp (.repL nameCls 1))
    (.look (.seq wsPlus (lit "Team Lead"))))

def teamLeadRx : Rx :=
  .seq (lit "Team Lead") (.seq wsStar
    (.seq (.grp (.repL nameCls 1))
      (.look (.seq wsPlus (lit "Manager")))))

def managerRx : Rx :=
  .seq (lit "Manager") (.seq wsStar
    (.seq (.grp (.repL nameCls 1))
      (.look (.alt (.seq wsPlus (lit "Marketing")) .eos))))

/-- The extracted-fields record: every field an optional string. -/
structure ExtractedFields where
  candidate_name : Option String
  phone_number : Option String
  email : Option String
  location : Option String
  position_applied : Option String
  job_location : Option String
  end_client : Option String
  rate : Option String
  interview_support_by : Option String
  team_lead : Option String
  manager : Option String
deriving Repr, DecidableEq

/-- The interview-support section isolator: the raw (untrimmed) first
capture of the section pattern over the text, if any. -/
def interviewSectionOf (text : List Char) : Option (List Char) :=
  match searchRx interviewRx text with
  | some (some (a, b)) => some (sliceStr text a b)
  | _ => none

/-- extractPoDetails from PoMails.js: normalize the input, isolate the
interview-support section, then run each field pattern, the last three
against the section only (the empty string when the section is absent). -/
def extractPoDetails (inputText : String) : ExtractedFields :=
  let text := normalizeList inputText.data
  let sec := (interviewSectionOf text).getD []
  { candidate_name := findIn candidateNameRx text
    phone_number := findIn phoneNumberRx text
    email := findIn emailRx text
    location := findIn locationRx text
    position_applied := findIn positionAppliedRx text
    job_location := findIn jobLocationRx text
    end_client := findIn endClientRx text
    rate := findIn rateRx text
    interview_support_by := findIn interviewSupportByRx sec
    team_lead := findIn teamLeadRx sec
    manager := findIn managerRx sec }

/-! ## HTML stripping and htmlToText -/

/-- Global regex replacement: scan left to right, at each position take
the JS match if any (its end strictly beyond the start for the patterns
used here), emit the replacement and continue after the match. -/
def replaceAllAux (r : Rx) (rep : List Char) : Nat → Nat → List Char → List Char
  | 0, _, rem => rem
  | fuel + 1, i, rem =>
    match rem with
    | [] => []
    | c :: rest =>
      match runFrom r i (c :: rest) with
      | o :: _ =>
        if i < o.1 then rep ++ replaceAllAux r rep fuel o.1 o.2.1
        else c :: replaceAllAux r rep fuel (i + 1) rest
      | [] => c :: replaceAllAux r rep fuel (i + 1) rest

def replaceAllRx (r : Rx) (rep : List Char) (s : List Char) : List Char :=
  replaceAllAux r rep s.length 0 s

/-- The script-block pattern: a script open tag, a lazy any-character
run, the closing script tag. -/
def scriptBlockRx : Rx :=
  .seq (lit "<script") (.seq (.repL (fun _ => true) 0) (lit "</script>"))

/-- The style-block pattern. -/
def styleBlockRx : Rx :=
  .seq (lit "<style") (.seq (.repL (fun _ => true) 0) (lit "</style>"))

/-- The tag pattern: an angle bracket, an optional slash, one or more
characters other than the closing bracket, the closing bracket. -/
def tagRx : Rx :=
  .seq (exCh '<') (.seq (.repG (fun d => d == '/') 0 (some 1))
    (.seq (.repG (fun d => !(d == '>')) 1 none) (exCh '>')))

/-- The non-breaking-space entity. -/
def nbspEntityRx : Rx := lit "&nbsp;"

/-- The four stripping passes of htmlToText, in source order. -/
def stripHtml (l : List Char) : List Char :=
  replaceAllRx nbspEntityRx [' ']
    (replaceAllRx tagRx [' ']
      (replaceAllRx styleBlockRx [' ']
        (replaceAllRx scriptBlockRx [' '] l)))

/-- The result of htmlToText: the empty string on falsy input, else the
extracted fields of the stripped and normalized body. -/
inductive HtmlToTextResult where
  | emptyStr : HtmlToTextResult
  | fields (f : ExtractedFields) : HtmlToTextResult
deriving Repr, DecidableEq

/-- htmlToText from PoMails.js: on null or empty input return the empty
string; otherwise strip script and style blocks, tags and the nbsp
entity, normalize, and extract the PO details. -/
def htmlToText (htmlContent : Option String) : HtmlToTextResult :=
  match htmlContent with
  | none => .emptyStr
  | some h =>
    if h = "" then .emptyStr
    else .fields (extractPoDetails (normalizeText (String.mk (stripHtml h.data))))

/-! ## Claims about the extractor -/

/-- A field value is either absent or a string fixed by trimming. -/
def TrimmedOrAbsent (f : Option String) : Prop :=
  f = none ∨ ∃ s, f = some s ∧ jsTrimList s.data = s.data

theorem jsTrimList_idem (l : List Char) :
    jsTrimList (jsTrimList l) = jsTrimList l :=
  jsTrimList_fixed (endsNotWs_jsTrimList l)

theorem trimmedOrAbsent_findIn (r : Rx) (src : List Char) :
    TrimmedOrAbsent (findIn r src) := by
  rw [findIn]
  rcases searchRx r src with _ | ⟨_ | ⟨a, b⟩⟩
  · exact Or.inl rfl
  · exact Or.inl rfl
  · exact Or.inr ⟨_, rfl, jsTrimList_idem _⟩


/-- Bool test that needle occurs as a contiguous span of hay. -/
def containsSpan (needle hay : List Char) : Bool :=
  (List.range (hay.length + 1)).any (fun i => needle.isPrefixOf (hay.drop i))

/-- The extractor record written out field by field. -/
theorem extractPoDetails_eq (t : String) :
    extractPoDetails t =
      { candidate_name := findIn candidateNameRx (normalizeList t.data)
        phone_number := findIn phoneNumberRx (normalizeList t.data)
        email := findIn emailRx (normalizeList t.data)
        location := findIn locationRx (normalizeList t.data)
        position_applied := findIn positionAppliedRx (normalizeList t.data)
        job_location := findIn jobLocationRx (normalizeList t.data)
        end_client := findIn endClientRx (normalizeList t.data)
        rate := findIn rateRx (normalizeList t.data)
        interview_support_by := findIn interviewSupportByRx
          ((interviewSectionOf (normalizeList t.data)).getD [])
        team_lead := findIn teamLeadRx
          ((interviewSectionOf (normalizeList t.data)).getD [])
        manager := findIn managerRx
          ((interviewSectionOf (normalizeList t.data)).getD []) } := rfl

/-- C1: for every text input the extractor returns a complete record in
which each of the eleven named fields is either an explicit absent value
or a string fixed by trimming, and the extraction stage maps null and
empty bodies to the empty result; extraction is a total function, so it
never raises. -/
theorem claim_C1_extractor_total :
    (∀ t : String,
      TrimmedOrAbsent (extractPoDetails t).candidate_name ∧
      TrimmedOrAbsent (extractPoDetails t).phone_number ∧
      TrimmedOrAbsent (extractPoDetails t).email ∧
      TrimmedOrAbsent (extractPoDetails t).location ∧
      TrimmedOrAbsent (extractPoDetails t).position_applied ∧
      TrimmedOrAbsent (extractPoDetails t).job_location ∧
      TrimmedOrAbsent (extractPoDetails t).end_client ∧
      TrimmedOrAbsent (extractPoDetails t).rate ∧
      TrimmedOrAbsent (extractPoDetails t).interview_support_by ∧
      TrimmedOrAbsent (extractPoDetails t).team_lead ∧
      TrimmedOrAbsent (extractPoDetails t).manager) ∧
    htmlToText none = .emptyStr ∧ htmlToText (some "") = .emptyStr := by
  refine ⟨fun t => ?_, rfl, rfl⟩
  simp only [extractPoDetails_eq]
  exact ⟨trimmedOrAbsent_findIn _ _, trimmedOrAbsent_findIn _ _,
    trimmedOrAbsent_findIn _ _, trimmedOrAbsent_findIn _ _,
    trimmedOrAbsent_findIn _ _, trimmedOrAbsent_findIn _ _,
    trimmedOrAbsent_findIn _ _, trimmedOrAbsent_findIn _ _,
    trimmedOrAbsent_findIn _ _, trimmedOrAbsent_findIn _ _,
    trimmedOrAbsent_findIn _ _⟩

/-- The template text of the C7 testable property. -/
def c7Text : String := "Name of Candidate: Jane Doe SST Location: USA"

set_option maxRecDepth 8192 in
set_option maxHeartbeats 4000000 in
/-- C7 counterexample: on the template text the location field is not
"USA" (the colon after the Location anchor blocks the two-to-three
letter capture), so the claimed pair of outputs does not hold. -/
theorem claim_C7_counterexample :
    ¬ ((extractPoDetails c7Text).candidate_name = some "Jane Doe" ∧
       (extractPoDetails c7Text).location = some "USA") := by
  intro h
  have hl : (extractPoDetails c7Text).location = none := by decide
  rw [hl] at h
  exact Option.noConfusion h.2

set_option maxRecDepth 8192 in
set_option maxHeartbeats 4000000 in
/-- C7 amended: on the template text the candidate name is extracted as
"Jane Doe" while the location field is absent. -/
theorem claim_C7_amended :
    (extractPoDetails c7Text).candidate_name = some "Jane Doe" ∧
    (extractPoDetails c7Text).location = none := by
  exact ⟨by decide, by decide⟩

/-- The span named by C2. -/
def c2SpanText : String :=
  "Interview Support Support by Alice Team Lead Bob Manager Carol Marketing Application"

/-- A body containing the C2 span preceded by an earlier interview
section. -/
def c2DecoyText : String :=
  "Interview Support Support by Zed Interview Support Support by Alice Team Lead Bob Manager Carol Marketing Application x"

/-- A body containing the C2 span preceded by an unrelated Manager
label. -/
def c2ExampleText : String :=
  "Manager Dave Interview Support Support by Alice Team Lead Bob Manager Carol Marketing Application Foo"

set_option maxRecDepth 16384 in
set_option maxHeartbeats 8000000 in
/-- C2 counterexample: a text that does contain the C2 span, but whose
first interview-support anchor occurs earlier, extracts an
interview-support value other than "Alice"; the claim quantified over
all texts containing the span is false. -/
theorem claim_C2_counterexample :
    containsSpan c2SpanText.data c2DecoyText.data = true ∧
    (extractPoDetails c2DecoyText).interview_support_by ≠ some "Alice" := by
  refine ⟨by decide, ?_⟩
  have h : (extractPoDetails c2DecoyText).interview_support_by =
      some "Zed Interview Support Support by Alice" := by decide
  rw [h]
  decide

set_option maxRecDepth 16384 in
set_option maxHeartbeats 8000000 in
/-- C2 amended: on the example body, with a decoy Manager label before
the section, the three section-scoped fields are Alice, Bob and Carol;
and whenever the interview-support span is not found in the normalized
text all three section-scoped fields are absent. -/
theorem claim_C2_section_scoped :
    ((extractPoDetails c2ExampleText).interview_support_by = some "Alice" ∧
     (extractPoDetails c2ExampleText).team_lead = some "Bob" ∧
     (extractPoDetails c2ExampleText).manager = some "Carol") ∧
    ∀ t : String, interviewSectionOf (normalizeList t.data) = none →
      (extractPoDetails t).interview_support_by = none ∧
      (extractPoDetails t).team_lead = none ∧
      (extractPoDetails t).manager = none := by
  refine ⟨⟨by decide, by decide, by decide⟩, fun t h => ?_⟩
  have hs : (interviewSectionOf (normalizeList t.data)).getD [] =
      ([] : List Char) := by rw [h]; rfl
  refine ⟨?_, ?_, ?_⟩ <;> simp only [extractPoDetails_eq] <;> rw [hs] <;> decide

set_option maxRecDepth 8192 in
/-- C2 witness: a concrete text without the interview-support span has
all three section-scoped fields absent. -/
theorem claim_C2_section_scoped_witness :
    (extractPoDetails "hello").interview_support_by = none ∧
    (extractPoDetails "hello").team_lead = none ∧
    (extractPoDetails "hello").manager = none :=
  claim_C2_section_scoped.2 "hello" (by decide)

/-- C8: the text normalizer is idempotent, and the normalization stage
returns the empty result on null or empty input. -/
theorem claim_C8_normalizer_idem :
    (∀ s : String, normalizeText (normalizeText s) = normalizeText s) ∧
    htmlToText none = .emptyStr ∧ htmlToText (some "") = .emptyStr := by
  refine ⟨fun s => ?_, rfl, rfl⟩
  exact congrArg String.mk (normalizeList_idem s.data)


/-! ## Decimal rendering (JS String(n)) -/

/-- The decimal digits of n, most significant first; fuel bounds the
recursion (any fuel with n below ten to the fuel works). -/
def natToDecimalAux : Nat → Nat → List Char
  | 0, _ => []
  | fuel + 1, n =>
    if n < 10 then [Char.ofNat (48 + n)]
    else natToDecimalAux fuel (n / 10) ++ [Char.ofNat (48 + n % 10)]

/-- The decimal digit string of a natural number. -/
def natToDecimal (n : Nat) : List Char := natToDecimalAux (n + 1) n

/-- JS String(n) for an integer. -/
def intToDecimal (y : Int) : String :=
  if y < 0 then ⟨'-' :: natToDecimal (-y).toNat⟩ else ⟨natToDecimal y.toNat⟩

/-! ## Dates

new Date(string) is modelled on the ISO-8601 subset the system stores
(the Graph receivedDateTime strings): year, optional month and day,
optional time and milliseconds, optional Z suffix.  A UTC environment is
assumed, so the local-time accessors coincide with the UTC fields. -/

/-- A successfully parsed date, by calendar fields. -/
structure JsDate where
  year : Int
  month : Nat
  day : Nat
  hour : Nat
  minute : Nat
  second : Nat
  msec : Nat
deriving Repr, DecidableEq

/-- Days from the epoch to a civil date (floor-division form of the
standard civil-calendar conversion). -/
def daysFromCivil (y : Int) (m d : Nat) : Int :=
  let y2 : Int := if m ≤ 2 then y - 1 else y
  let era : Int := y2.fdiv 400
  let yoe : Int := y2 - era * 400
  let mp : Int := (m : Int) + (if m ≤ 2 then 9 else -3)
  let doy : Int := (153 * mp + 2).fdiv 5 + (d : Int) - 1
  let doe : Int := yoe * 365 + yoe.fdiv 4 - yoe.fdiv 100 + doy
  era * 146097 + doe - 719468

/-- Date.prototype.getTime: epoch milliseconds. -/
def JsDate.getTime (dt : JsDate) : Int :=
  daysFromCivil dt.year dt.month dt.day * 86400000 +
    dt.hour * 3600000 + dt.minute * 60000 + dt.second * 1000 + dt.msec

def isLeapYear (y : Int) : Bool :=
  (y % 4 == 0 && y % 100 != 0) || y % 400 == 0

def daysInMonth (y : Int) (m : Nat) : Nat :=
  if m = 2 then (if isLeapYear y then 29 else 28)
  else if m = 4 || m = 6 || m = 9 || m = 11 then 30
  else 31

def digitVal (c : Char) : Nat := c.toNat - 48

/-- Exactly n leading digits, as a number, with the rest of the input. -/
def parseDigits (n : Nat) (l : List Char) : Option (Nat × List Char) :=
  let pre := l.take n
  if pre.length = n && pre.all isDigitCh then
    some (pre.foldl (fun a c => a * 10 + digitVal c) 0, l.drop n)
  else none

/-- The optional trailing milliseconds and zone suffix. -/
def parseMsZ (l : List Char) : Option Nat :=
  match l with
  | [] => some 0
  | 'Z' :: [] => some 0
  | '.' :: rest =>
    match parseDigits 3 rest with
    | some (ms, []) => some ms
    | some (ms, 'Z' :: []) => some ms
    | _ => none
  | _ => none

/-- The time-of-day part after the T separator. -/
def parseTime (y : Int) (mo d : Nat) (l : List Char) : Option JsDate :=
  match parseDigits 2 l with
  | some (h, ':' :: r1) =>
    match parseDigits 2 r1 with
    | some (mi, r2) =>
      if h ≤ 23 && mi ≤ 59 then
        match r2 with
        | [] => some ⟨y, mo, d, h, mi, 0, 0⟩
        | 'Z' :: [] => some ⟨y, mo, d, h, mi, 0, 0⟩
        | ':' :: r3 =>
          match parseDigits 2 r3 with
          | some (se, r4) =>
            if se ≤ 59 then
              match parseMsZ r4 with
              | some ms => some ⟨y, mo, d, h, mi, se, ms⟩
              | none => none
            else none
          | _ => none
        | _ => none
      else none
    | _ => none
  | _ => none

/-- new Date(string) on the stored ISO subset: a four-digit year,
optional month and day, optional time; anything else is an invalid
date (None, standing for NaN). -/
def jsParseDate (s : String) : Option JsDate :=
  match parseDigits 4 s.data with
  | some (yn, rest) =>
    let y : Int := (yn : Int)
    match rest with
    | [] => some ⟨y, 1, 1, 0, 0, 0, 0⟩
    | '-' :: r1 =>
      match parseDigits 2 r1 with
      | some (mo, r2) =>
        if 1 ≤ mo && mo ≤ 12 then
          match r2 with
          | [] => some ⟨y, mo, 1, 0, 0, 0, 0⟩
          | '-' :: r3 =>
            match parseDigits 2 r3 with
            | some (d, r4) =>
              if 1 ≤ d && d ≤ daysInMonth y mo then
                match r4 with
                | [] => some ⟨y, mo, d, 0, 0, 0, 0⟩
                | 'T' :: r5 => parseTime y mo d r5
                | _ => none
              else none
            | _ => none
          | _ => none
        else none
      | _ => none
    | _ => none
  | _ => none

/-! ## The record shape consumed by the frontend -/

/-- The sender object of a record. -/
structure SenderInfo where
  name : String
  address : String
deriving Repr, DecidableEq

/-- A stored record: the RawMessage projection joined with its
extracted fields (optional strings; the frontend treats a missing and
an empty value alike through the JS truthy-or). -/
structure RecordItem where
  id : String
  subject : String
  sender : Option SenderInfo
  receivedDateTime : String
  bodyPreview : String
  webLink : String
  extracted : ExtractedFields
deriving Repr, DecidableEq

/-- The JS truthy-or on an optional string: null, undefined and the
empty string select the fallback. -/
def jsOr (v : Option String) (d : String) : String :=
  match v with
  | some s => if s = "" then d else s
  | none => d

/-! ## Month labels and sort keys (app.js formatMonth / monthSortKey) -/

/-- The en-US long month names used by toLocaleString. -/
def monthName : Nat → String
  | 1 => "January" | 2 => "February" | 3 => "March" | 4 => "April"
  | 5 => "May" | 6 => "June" | 7 => "July" | 8 => "August"
  | 9 => "September" | 10 => "October" | 11 => "November" | 12 => "December"
  | _ => ""

/-- String(n).padStart(2, "0") for a month number. -/
def pad2 (n : Nat) : String :=
  if n < 10 then ⟨'0' :: natToDecimal n⟩ else ⟨natToDecimal n⟩

/-- formatMonth from app.js: a falsy or unparseable value gives the
Unknown Month label, otherwise the long month name and year. -/
def formatMonth (value : String) : String :=
  if value = "" then "Unknown Month"
  else
    match jsParseDate value with
    | none => "Unknown Month"
    | some d => monthName d.month ++ " " ++ intToDecimal d.year

/-- monthSortKey from app.js: an unparseable value gives 0000-00,
otherwise the year, a dash and the zero-padded month number. -/
def monthSortKey (value : String) : String :=
  match jsParseDate value with
  | none => "0000-00"
  | some d => intToDecimal d.year ++ "-" ++ pad2 d.month

/-- new Date(x || 0): the empty string is coerced to the epoch; other
strings parse or give an invalid date (None, standing for NaN). -/
def parseReceivedOr0 (s : String) : Option JsDate :=
  if s = "" then some ⟨1970, 1, 1, 0, 0, 0, 0⟩ else jsParseDate s

/-- The received time of a record in epoch milliseconds, None when the
getTime of the coerced date is NaN. -/
def recTime (r : RecordItem) : Option Int :=
  (parseReceivedOr0 r.receivedDateTime).map (fun d => d.getTime)

/-! ## JS string comparison and array sort -/

/-- JS string less-than: lexicographic by character code. -/
def strLtCh : List Char → List Char → Bool
  | [], [] => false
  | [], _ :: _ => true
  | _ :: _, [] => false
  | a :: as, b :: bs =>
    if a.toNat < b.toNat then true
    else if b.toNat < a.toNat then false
    else strLtCh as bs

def jsStrLt (a b : String) : Bool := strLtCh a.data b.data

/-- Stable insertion used to model Array.prototype.sort with a
consistent comparator: an element moves before the first element it is
strictly before, staying after equal elements. -/
def insertBy (lt : α → α → Bool) (x : α) : List α → List α
  | [] => [x]
  | y :: ys => if lt x y then x :: y :: ys else y :: insertBy lt x ys

/-- The stable sort modelling Array.prototype.sort: lt x y means the
comparator orders x strictly before y. -/
def sortByJs (lt : α → α → Bool) (l : List α) : List α :=
  l.foldl (fun acc x => insertBy lt x acc) []

/-! ## Month bucketing and candidate grouping (the grouped memo) -/

/-- Insert a record into the bucket of its month label, creating the
bucket at the end on first sight (JS Map insertion order), keeping the
sort key recorded at creation. -/
def upsertBucket (acc : List (String × String × List RecordItem))
    (label key : String) (it : RecordItem) :
    List (String × String × List RecordItem) :=
  match acc with
  | [] => [(label, key, [it])]
  | (l, k, its) :: rest =>
    if l = label then (l, k, its ++ [it]) :: rest
    else (l, k, its) :: upsertBucket rest label key it

/-- The month buckets in first-seen order. -/
def monthBucketsOf (items : List RecordItem) :
    List (String × String × List RecordItem) :=
  items.foldl
    (fun acc it =>
      upsertBucket acc (formatMonth it.receivedDateTime)
        (monthSortKey it.receivedDateTime) it) []

/-- The bucket list sorted by sort key descending (comparator
a.sortKey < b.sortKey then 1 else -1). -/
def sortedMonthBuckets (items : List RecordItem) :
    List (String × String × List RecordItem) :=
  sortByJs (fun a b => jsStrLt b.2.1 a.2.1) (monthBucketsOf items)

/-- The candidate-group key: candidate name, else subject, else
Untitled. -/
def candidateKey (r : RecordItem) : String :=
  jsOr r.extracted.candidate_name (if r.subject = "" then "Untitled" else r.subject)

/-- Insert a record into its candidate group in first-seen order. -/
def upsertGroup (acc : List (String × List RecordItem)) (key : String)
    (it : RecordItem) : List (String × List RecordItem) :=
  match acc with
  | [] => [(key, [it])]
  | (k, its) :: rest =>
    if k = key then (k, its ++ [it]) :: rest
    else (k, its) :: upsertGroup rest key it

/-- The candidate groups of one bucket, in first-seen order. -/
def candidateGroupsOf (items : List RecordItem) :
    List (String × List RecordItem) :=
  items.foldl (fun acc it => upsertGroup acc (candidateKey it) it) []

/-- The grouped view: sorted month buckets, each with its label and its
candidate groups. -/
def grouped (filtered : List RecordItem) :
    List (String × List (String × List RecordItem)) :=
  (sortedMonthBuckets filtered).map (fun b => (b.1, candidateGroupsOf b.2.2))

/-! ## Company dedup (latestPerCompany) -/

/-- The company key: end client, else job location, else Unknown
Company. -/
def companyKey (r : RecordItem) : String :=
  jsOr r.extracted.end_client (jsOr r.extracted.job_location "Unknown Company")

/-- JS strict greater-than on possibly-NaN times: false whenever either
side is NaN. -/
def optGt (x y : Option Int) : Bool :=
  match x, y with
  | some a, some b => b < a
  | _, _ => false

/-- One step of the latestPerCompany fold: keep the existing record for
the company unless the new one has a strictly greater time. -/
def upsertLatest (acc : List (String × RecordItem)) (it : RecordItem) :
    List (String × RecordItem) :=
  match acc with
  | [] => [(companyKey it, it)]
  | (c, e) :: rest =>
    if c = companyKey it then
      if optGt (recTime it) (recTime e) then (c, it) :: rest
      else (c, e) :: rest
    else (c, e) :: upsertLatest rest it

/-- latestPerCompany from app.js: per company key keep the record with
the strictly greatest time seen (the first on ties or NaN), then sort
by time descending (comparator bDate minus aDate, NaN giving 0). -/
def latestPerCompany (items : List RecordItem) : List RecordItem :=
  sortByJs (fun x y => optGt (recTime x) (recTime y))
    ((items.foldl upsertLatest []).map (fun e => e.2))

/-! ## Support statistics -/

/-- The support-person name of a record. -/
def supName (r : RecordItem) : String :=
  jsOr r.extracted.interview_support_by "Unknown"

/-- The candidate name of a record, for the statistics view. -/
def candName (r : RecordItem) : String :=
  jsOr r.extracted.candidate_name "Unknown"

/-- The year/month filter test of supportCounts and supportCandidates:
a record with a NaN coerced date skips the filter entirely; otherwise
each non-All filter must match the corresponding field. -/
def passesPeriodFilter (supportYear supportMonth : String)
    (r : RecordItem) : Bool :=
  match parseReceivedOr0 r.receivedDateTime with
  | some d =>
    (supportYear == "All" || intToDecimal d.year == supportYear) &&
    (supportMonth == "All" || pad2 d.month == supportMonth)
  | none => true

/-- Increment the count of a name, inserting it at the end on first
sight. -/
def bumpCount (acc : List (String × Nat)) (n : String) :
    List (String × Nat) :=
  match acc with
  | [] => [(n, 1)]
  | (m, c) :: rest =>
    if m = n then (m, c + 1) :: rest else (m, c) :: bumpCount rest n

/-- supportCounts from app.js: count filtered records per support name,
then sort rows by count descending (stable on ties). -/
def supportCounts (filtered : List RecordItem)
    (supportYear supportMonth : String) : List (String × Nat) :=
  sortByJs (fun x y => y.2 < x.2)
    (filtered.foldl
      (fun acc r =>
        if passesPeriodFilter supportYear supportMonth r then
          bumpCount acc (supName r)
        else acc) [])

/-- Add a candidate to the set of a support name (JS Set: insertion
order, no duplicates). -/
def addCandidate (acc : List (String × List String)) (n c : String) :
    List (String × List String) :=
  match acc with
  | [] => [(n, [c])]
  | (m, cs) :: rest =>
    if m = n then (m, if cs.contains c then cs else cs ++ [c]) :: rest
    else (m, cs) :: addCandidate rest n c

/-- supportCandidates from app.js: the distinct candidate names per
support name among the filtered records passing the period filter. -/
def supportCandidates (filtered : List RecordItem)
    (supportYear supportMonth : String) : List (String × List String) :=
  filtered.foldl
    (fun acc r =>
      if passesPeriodFilter supportYear supportMonth r then
        addCandidate acc (supName r) (candName r)
      else acc) []

/-! ## Default filter seeding (latestPeriod and the seeding effect) -/

/-- A year/month filter pair. -/
structure PeriodPair where
  year : String
  month : String
deriving Repr, DecidableEq

/-- latestPeriod from app.js: the year and month of the greatest
parseable coerced date, or All/All when none parses. -/
def latestPeriod (filtered : List RecordItem) : PeriodPair :=
  let latest := filtered.foldl
    (fun acc r =>
      match parseReceivedOr0 r.receivedDateTime with
      | none => acc
      | some d =>
        match acc with
        | none => some d
        | some l => if l.getTime < d.getTime then some d else acc) none
  match latest with
  | none => ⟨"All", "All"⟩
  | some l => ⟨intToDecimal l.year, pad2 l.month⟩

/-- One run of the seeding effect: a filter currently at All is set to
the latest period when that is not All; other values are left alone. -/
def seedEffect (latest : PeriodPair) (supportYear supportMonth : String) :
    PeriodPair :=
  ⟨if supportYear = "All" && !(latest.year == "All") then latest.year
    else supportYear,
   if supportMonth = "All" && !(latest.month == "All") then latest.month
    else supportMonth⟩


/-! ## Order facts about JS string comparison and the sort model -/

theorem char_eq_of_toNat {x y : Char} (h : x.toNat = y.toNat) : x = y := by
  have h2 := congrArg Char.ofNat h
  rwa [Char.ofNat_toNat, Char.ofNat_toNat] at h2

theorem strLtCh_irrefl (l : List Char) : strLtCh l l = false := by
  induction l with
  | nil => rfl
  | cons c rest ih => simp [strLtCh, ih]

theorem strLtCh_asymm : ∀ (a b : List Char),
    strLtCh a b = true → strLtCh b a = false := by
  intro a
  induction a with
  | nil =>
    intro b h
    cases b with
    | nil => simp [strLtCh] at h
    | cons y ys => rfl
  | cons x xs ih =>
    intro b h
    cases b with
    | nil => simp [strLtCh] at h
    | cons y ys =>
      rcases Nat.lt_trichotomy x.toNat y.toNat with h1 | h1 | h1
      · simp [strLtCh, h1, Nat.lt_asymm h1]
      · have hc : x = y := char_eq_of_toNat h1
        subst hc
        simp only [strLtCh, Nat.lt_irrefl, if_false] at h ⊢
        exact ih ys h
      · simp [strLtCh, h1, Nat.lt_asymm h1] at h

theorem strLtCh_conn : ∀ (a b : List Char),
    strLtCh a b = false → strLtCh b a = false → a = b := by
  intro a
  induction a with
  | nil =>
    intro b h1 _
    cases b with
    | nil => rfl
    | cons y ys => simp [strLtCh] at h1
  | cons x xs ih =>
    intro b h1 h2
    cases b with
    | nil => simp [strLtCh] at h2
    | cons y ys =>
      rcases Nat.lt_trichotomy x.toNat y.toNat with hc | hc | hc
      · simp [strLtCh, hc] at h1
      · have hxy : x = y := char_eq_of_toNat hc
        subst hxy
        simp only [strLtCh, Nat.lt_irrefl, if_false] at h1 h2
        rw [ih ys h1 h2]
      · simp [strLtCh, hc] at h2

theorem strLtCh_trans : ∀ (a b c : List Char),
    strLtCh a b = true → strLtCh b c = true → strLtCh a c = true := by
  intro a
  induction a with
  | nil =>
    intro b c h1 h2
    cases c with
    | nil =>
      cases b with
      | nil => simp [strLtCh] at h1
      | cons y ys => simp [strLtCh] at h2
    | cons z zs => rfl
  | cons x xs ih =>
    intro b c h1 h2
    cases b with
    | nil => simp [strLtCh] at h1
    | cons y ys =>
      cases c with
      | nil => simp [strLtCh] at h2
      | cons z zs =>
        rcases Nat.lt_trichotomy x.toNat y.toNat with hxy | hxy | hxy
        · rcases Nat.lt_trichotomy y.toNat z.toNat with hyz | hyz | hyz
          · simp [strLtCh, Nat.lt_trans hxy hyz]
          · simp [strLtCh, hyz ▸ hxy]
          · simp [strLtCh, hyz, Nat.lt_asymm hyz] at h2
        · have : x = y := char_eq_of_toNat hxy
          subst this
          simp only [strLtCh, Nat.lt_irrefl, if_false] at h1
          rcases Nat.lt_trichotomy x.toNat z.toNat with hxz | hxz | hxz
          · simp [strLtCh, hxz]
          · have : x = z := char_eq_of_toNat hxz
            subst this
            simp only [strLtCh, Nat.lt_irrefl, if_false] at h2 ⊢
            exact ih ys zs h1 h2
          · simp [strLtCh, hxz, Nat.lt_asymm hxz] at h2
        · simp [strLtCh, hxy, Nat.lt_asymm hxy] at h1

/-- Both directions false forces equality, so the not-less relation is
transitive. -/
theorem strLtCh_le_trans {a b c : List Char}
    (h1 : strLtCh a b = false) (h2 : strLtCh b c = false) :
    strLtCh a c = false := by
  cases hac : strLtCh a c with
  | false => rfl
  | true =>
    exfalso
    cases hcb : strLtCh c b with
    | true =>
      have := strLtCh_trans a c b hac hcb
      rw [this] at h1
      exact Bool.noConfusion h1
    | false =>
      have hbc : b = c := strLtCh_conn b c h2 hcb
      rw [hbc, hac] at h1
      exact Bool.noConfusion h1

theorem mem_insertBy (lt : α → α → Bool) (x : α) :
    ∀ (l : List α) (y : α), y ∈ insertBy lt x l ↔ y = x ∨ y ∈ l := by
  intro l
  induction l with
  | nil => intro y; simp [insertBy]
  | cons z zs ih =>
    intro y
    rw [insertBy]
    by_cases h : lt x z = true
    · rw [if_pos h]
      exact List.mem_cons
    · rw [if_neg h]
      rw [List.mem_cons, ih, List.mem_cons]
      tauto

theorem perm_insertBy (lt : α → α → Bool) (x : α) :
    ∀ l : List α, List.Perm (insertBy lt x l) (x :: l) := by
  intro l
  induction l with
  | nil => simp [insertBy]
  | cons z zs ih =>
    rw [insertBy]
    by_cases h : lt x z = true
    · rw [if_pos h]
    · rw [if_neg h]
      exact (ih.cons z).trans (List.Perm.swap x z zs)

theorem perm_sortByJs (lt : α → α → Bool) (l : List α) :
    List.Perm (sortByJs lt l) l := by
  suffices h : ∀ (l2 acc : List α),
      List.Perm (l2.foldl (fun a y => insertBy lt y a) acc) (acc ++ l2) by
    simpa using h l []
  intro l2
  induction l2 with
  | nil => intro acc; simp
  | cons z zs ih =>
    intro acc
    rw [List.foldl_cons]
    refine (ih (insertBy lt z acc)).trans ?_
    refine (List.Perm.append_right zs ((perm_insertBy lt z acc))).trans ?_
    exact List.perm_middle.symm

theorem pairwise_insertBy (lt : α → α → Bool) (R : α → α → Prop)
    (P : α → Prop)
    (hcompat : ∀ a b, P a → P b → lt a b = true → R a b)
    (hneg : ∀ a b, P a → P b → lt a b = false → R b a)
    (htrans : ∀ a b c, P a → P b → P c → R a b → R b c → R a c)
    (x : α) (hx : P x) :
    ∀ l : List α, (∀ y ∈ l, P y) → l.Pairwise R →
      (insertBy lt x l).Pairwise R := by
  intro l
  induction l with
  | nil => intro _ _; simp [insertBy]
  | cons z zs ih =>
    intro hP hp
    rw [insertBy]
    by_cases h : lt x z = true
    · rw [if_pos h]
      have hxz : R x z := hcompat x z hx (hP z (by simp)) h
      refine List.Pairwise.cons ?_ hp
      intro y hy
      rcases List.mem_cons.mp hy with rfl | hy2
      · exact hxz
      · exact htrans x z y hx (hP z (by simp)) (hP y (by simp [hy2]))
          hxz ((List.pairwise_cons.mp hp).1 y hy2)
    · rw [if_neg h]
      refine List.Pairwise.cons ?_ (ih (fun y hy => hP y (by simp [hy]))
        (List.pairwise_cons.mp hp).2)
      intro y hy
      rcases (mem_insertBy lt x zs y).mp hy with hyx | hy2
      · rw [hyx]
        exact hneg x z hx (hP z (by simp)) (by simpa using h)
      · exact (List.pairwise_cons.mp hp).1 y hy2

theorem pairwise_sortByJs (lt : α → α → Bool) (R : α → α → Prop)
    (P : α → Prop)
    (hcompat : ∀ a b, P a → P b → lt a b = true → R a b)
    (hneg : ∀ a b, P a → P b → lt a b = false → R b a)
    (htrans : ∀ a b c, P a → P b → P c → R a b → R b c → R a c)
    (l : List α) (hP : ∀ y ∈ l, P y) : (sortByJs lt l).Pairwise R := by
  suffices h : ∀ (l2 acc : List α), (∀ y ∈ l2, P y) → (∀ y ∈ acc, P y) →
      acc.Pairwise R →
      (l2.foldl (fun a y => insertBy lt y a) acc).Pairwise R by
    exact h l [] hP (by simp) (by simp)
  intro l2
  induction l2 with
  | nil => intro acc _ _ hp; exact hp
  | cons z zs ih =>
    intro acc hl2 hacc hp
    rw [List.foldl_cons]
    refine ih _ (fun y hy => hl2 y (by simp [hy])) ?_ ?_
    · intro y hy
      rcases (mem_insertBy lt z acc y).mp hy with rfl | hy2
      · exact hl2 y (by simp)
      · exact hacc y hy2
    · exact pairwise_insertBy lt R P hcompat hneg htrans z
        (hl2 z (by simp)) acc hacc hp


/-! ## The sort key of a real year is above the Unknown key -/

theorem char_toNat_ofNat {n : Nat} (h : n < 55296) :
    (Char.ofNat n).toNat = n := by
  rw [Char.ofNat, dif_pos (Or.inl h)]
  rfl

/-- The digit list of a positive number starts with a nonzero digit. -/
theorem natToDecimalAux_head (fuel : Nat) :
    ∀ n : Nat, 1 ≤ n → n < 10 ^ fuel →
      ∃ c cs, natToDecimalAux fuel n = c :: cs ∧
        49 ≤ c.toNat ∧ c.toNat ≤ 57 := by
  induction fuel with
  | zero => intro n h1 h2; simp at h2; omega
  | succ fuel ih =>
    intro n h1 h2
    rw [natToDecimalAux]
    by_cases h : n < 10
    · rw [if_pos h]
      refine ⟨Char.ofNat (48 + n), [], rfl, ?_, ?_⟩
      · rw [char_toNat_ofNat (by omega)]; omega
      · rw [char_toNat_ofNat (by omega)]; omega
    · rw [if_neg h]
      have hd1 : 1 ≤ n / 10 := Nat.le_div_iff_mul_le (by omega) |>.mpr (by omega)
      have hd2 : n / 10 < 10 ^ fuel := by
        rw [Nat.div_lt_iff_lt_mul (by omega)]
        calc n < 10 ^ (fuel + 1) := h2
        _ = 10 ^ fuel * 10 := by rw [Nat.pow_succ]
      obtain ⟨c, cs, heq, hc1, hc2⟩ := ih (n / 10) hd1 hd2
      exact ⟨c, cs ++ [Char.ofNat (48 + n % 10)], by rw [heq]; rfl, hc1, hc2⟩

theorem natToDecimal_head (n : Nat) (h : 1 ≤ n) :
    ∃ c cs, natToDecimal n = c :: cs ∧ 49 ≤ c.toNat ∧ c.toNat ≤ 57 :=
  natToDecimalAux_head (n + 1) n h
    (lt_of_lt_of_le (Nat.lt_pow_self (by omega) n)
      (Nat.pow_le_pow_right (by omega) (by omega)))

/-- The Unknown Month key is lexicographically below the key of any
month with a positive year. -/
theorem zeroKey_lt_yearKey (y : Int) (hy : 1 ≤ y) (m : Nat) :
    jsStrLt "0000-00" (intToDecimal y ++ "-" ++ pad2 m) = true := by
  rw [jsStrLt, String.data_append, String.data_append]
  rw [intToDecimal, if_neg (by omega)]
  obtain ⟨c, cs, heq, hc1, _⟩ := natToDecimal_head y.toNat (by omega)
  have hdata : (String.mk (natToDecimal y.toNat)).data = c :: cs := heq
  rw [hdata, List.cons_append, List.cons_append]
  have h0 : ('0').toNat < c.toNat := by
    have : ('0').toNat = 48 := rfl
    omega
  rw [show ("0000-00" : String).data =
    '0' :: ['0', '0', '0', '-', '0', '0'] from rfl]
  rw [strLtCh, if_pos h0]

/-! ## Provenance of bucket keys -/

/-- A possible bucket key over a record set: the Unknown key or the
year-month key of some record's parsed date. -/
def KeyOk (rs : List RecordItem) (k : String) : Prop :=
  k = "0000-00" ∨ ∃ r ∈ rs, ∃ d, jsParseDate r.receivedDateTime = some d ∧
    k = intToDecimal d.year ++ "-" ++ pad2 d.month

theorem keyOk_monthSortKey (rs : List RecordItem) (r : RecordItem)
    (hr : r ∈ rs) : KeyOk rs (monthSortKey r.receivedDateTime) := by
  rw [monthSortKey]
  cases h : jsParseDate r.receivedDateTime with
  | none => exact Or.inl rfl
  | some d => exact Or.inr ⟨r, hr, d, h, rfl⟩

theorem mem_upsertBucket (label key : String) (it : RecordItem) :
    ∀ (acc : List (String × String × List RecordItem)) b,
      b ∈ upsertBucket acc label key it →
      (∃ a ∈ acc, b.2.1 = a.2.1) ∨ b.2.1 = key := by
  intro acc
  induction acc with
  | nil =>
    intro b hb
    rw [upsertBucket] at hb
    rcases List.mem_singleton.mp hb with rfl
    exact Or.inr rfl
  | cons a rest ih =>
    intro b hb
    obtain ⟨l, k, its⟩ := a
    rw [upsertBucket] at hb
    by_cases h : l = label
    · rw [if_pos h] at hb
      rcases List.mem_cons.mp hb with hb1 | hb2
      · exact Or.inl ⟨(l, k, its), by simp, by rw [hb1]⟩
      · exact Or.inl ⟨b, by simp [hb2], rfl⟩
    · rw [if_neg h] at hb
      rcases List.mem_cons.mp hb with hb1 | hb2
      · exact Or.inl ⟨(l, k, its), by simp, by rw [hb1]⟩
      · rcases ih b hb2 with ⟨a2, ha2, he⟩ | he
        · exact Or.inl ⟨a2, by simp [ha2], he⟩
        · exact Or.inr he

theorem keyOk_monthBucketsOf (rs : List RecordItem) :
    ∀ b ∈ monthBucketsOf rs, KeyOk rs b.2.1 := by
  rw [monthBucketsOf]
  suffices h : ∀ (l2 : List RecordItem) (acc : List (String × String × List RecordItem)),
      (∀ r ∈ l2, r ∈ rs) → (∀ b ∈ acc, KeyOk rs b.2.1) →
      ∀ b ∈ l2.foldl (fun a it =>
        upsertBucket a (formatMonth it.receivedDateTime)
          (monthSortKey it.receivedDateTime) it) acc, KeyOk rs b.2.1 by
    intro b hb
    exact h rs [] (fun r hr => hr) (by simp) b hb
  intro l2
  induction l2 with
  | nil => intro acc _ hacc b hb; exact hacc b hb
  | cons z zs ih =>
    intro acc hsub hacc b hb
    rw [List.foldl_cons] at hb
    refine ih _ (fun r hr => hsub r (by simp [hr])) ?_ b hb
    intro b2 hb2
    rcases mem_upsertBucket _ _ z acc b2 hb2 with ⟨a, ha, he⟩ | he
    · rw [he]; exact hacc a ha
    · rw [he]; exact keyOk_monthSortKey rs z (hsub z (by simp))

theorem keyOk_sortedMonthBuckets (rs : List RecordItem) :
    ∀ b ∈ sortedMonthBuckets rs, KeyOk rs b.2.1 := by
  intro b hb
  exact keyOk_monthBucketsOf rs b
    ((perm_sortByJs _ (monthBucketsOf rs)).mem_iff.mp hb)

/-! ## The C3 claim -/

/-- The C3 record with a parseable year-zero date. -/
def c3RecReal : RecordItem :=
  ⟨"c3a", "PO one", none, "0000-05-01T00:00:00Z", "", "",
    ⟨none, none, none, none, none, none, none, none, none, none, none⟩⟩

/-- The C3 record with an unparseable date. -/
def c3RecBad : RecordItem :=
  ⟨"c3b", "PO two", none, "not a date", "", "",
    ⟨none, none, none, none, none, none, none, none, none, none, none⟩⟩

/-- A record dated March 2024. -/
def c3Rec2024 : RecordItem :=
  ⟨"c3c", "PO three", none, "2024-03-05T00:00:00Z", "", "",
    ⟨none, none, none, none, none, none, none, none, none, none, none⟩⟩

/-- C3 counterexample: with a parseable year-zero record and an
unparseable record, the Unknown Month bucket (key 0000-00) is emitted
before the parseable bucket (key 0-05), because string-descending puts
0000-00 above 0-05; the claim that the Unknown bucket appears after
every parseable bucket is false. -/
theorem claim_C3_counterexample :
    (jsParseDate "0000-05-01T00:00:00Z").isSome = true ∧
    (sortedMonthBuckets [c3RecReal, c3RecBad]).map (fun b => b.2.1) =
      ["0000-00", "0-05"] := by
  constructor
  · decide
  · decide

/-- C3 amended: labels and keys are derived from the received
timestamp with Unknown Month and 0000-00 for unparseable or missing
values; the bucket list is always sorted by key descending; and when
every parseable record year is at least one, no parseable bucket
follows the Unknown Month bucket. -/
theorem claim_C3_unknown_bucket :
    (∀ s : String, jsParseDate s = none →
      formatMonth s = "Unknown Month" ∧ monthSortKey s = "0000-00") ∧
    (∀ rs : List RecordItem, (sortedMonthBuckets rs).Pairwise
      (fun a b => jsStrLt a.2.1 b.2.1 = false)) ∧
    (∀ rs : List RecordItem,
      (∀ r ∈ rs, 1 ≤ ((jsParseDate r.receivedDateTime).map
        JsDate.year).getD 1) →
      (sortedMonthBuckets rs).Pairwise
        (fun a b => a.2.1 = "0000-00" → b.2.1 = "0000-00")) := by
  refine ⟨?_, ?_, ?_⟩
  · intro s h
    constructor
    · rw [formatMonth]
      by_cases hs : s = ""
      · rw [if_pos hs]
      · rw [if_neg hs, h]
    · rw [monthSortKey, h]
  · intro rs
    exact pairwise_sortByJs
      (fun (a b : String × String × List RecordItem) => jsStrLt b.2.1 a.2.1)
      (fun (a b : String × String × List RecordItem) =>
        jsStrLt a.2.1 b.2.1 = false)
      (fun _ => True)
      (fun a b _ _ hl => strLtCh_asymm _ _ hl)
      (fun a b _ _ hl => hl)
      (fun a b c _ _ _ h1 h2 => strLtCh_le_trans h1 h2)
      (monthBucketsOf rs) (fun _ _ => trivial)
  · intro rs hy
    have hsorted := pairwise_sortByJs
      (fun (a b : String × String × List RecordItem) => jsStrLt b.2.1 a.2.1)
      (fun (a b : String × String × List RecordItem) =>
        jsStrLt a.2.1 b.2.1 = false)
      (fun _ => True)
      (fun a b _ _ hl => strLtCh_asymm _ _ hl)
      (fun a b _ _ hl => hl)
      (fun a b c _ _ _ h1 h2 => strLtCh_le_trans h1 h2)
      (monthBucketsOf rs) (fun _ _ => trivial)
    refine hsorted.imp_of_mem ?_
    intro a b ha hb hdesc hzero
    rcases keyOk_sortedMonthBuckets rs b hb with hb0 | ⟨r, hr, d, hd, hk⟩
    · exact hb0
    · exfalso
      have hy1 : 1 ≤ d.year := by
        have := hy r hr
        rw [hd] at this
        simpa using this
      have := zeroKey_lt_yearKey d.year hy1 d.month
      rw [← hk, ← hzero] at this
      rw [this] at hdesc
      exact Bool.noConfusion hdesc

/-- C3 witness: on a concrete set with an unparseable record and a
2024 record every consequent of the amended claim is realized. -/
theorem claim_C3_unknown_bucket_witness :
    (formatMonth "not a date" = "Unknown Month" ∧
      monthSortKey "not a date" = "0000-00") ∧
    (sortedMonthBuckets [c3RecBad, c3Rec2024]).Pairwise
      (fun a b => a.2.1 = "0000-00" → b.2.1 = "0000-00") :=
  ⟨claim_C3_unknown_bucket.1 "not a date" (by decide),
   claim_C3_unknown_bucket.2.2 [c3RecBad, c3Rec2024] (by decide)⟩


/-! ## The company dedup invariants (latestPerCompany) -/

theorem optGt_self (x : Option Int) : optGt x x = false := by
  cases x with
  | none => rfl
  | some a => simp [optGt]

/-- The keys after an upsert: unchanged when the company is present,
appended otherwise. -/
theorem keys_upsertLatest (it : RecordItem) :
    ∀ acc : List (String × RecordItem),
      (upsertLatest acc it).map Prod.fst =
        if companyKey it ∈ acc.map Prod.fst then acc.map Prod.fst
        else acc.map Prod.fst ++ [companyKey it] := by
  intro acc
  induction acc with
  | nil => simp [upsertLatest]
  | cons a rest ih =>
    obtain ⟨c, e⟩ := a
    rw [upsertLatest]
    by_cases h : c = companyKey it
    · rw [if_pos h]
      by_cases hg : optGt (recTime it) (recTime e) = true
      · rw [if_pos hg]
        simp [h]
      · rw [if_neg hg]
        simp [h]
    · rw [if_neg h]
      simp only [List.map_cons]
      by_cases h2 : companyKey it ∈ rest.map Prod.fst
      · rw [if_pos (List.mem_cons_of_mem _ h2), ih, if_pos h2]
      · have hni : companyKey it ∉ (c, e).1 :: rest.map Prod.fst := by
          simp only [List.mem_cons]
          rintro (hc | hc)
          · exact h hc.symm
          · exact h2 hc
        rw [if_neg hni, ih, if_neg h2]
        rfl

theorem nodup_keys_upsertLatest (it : RecordItem)
    (acc : List (String × RecordItem))
    (h : (acc.map Prod.fst).Nodup) :
    ((upsertLatest acc it).map Prod.fst).Nodup := by
  rw [keys_upsertLatest]
  by_cases hm : companyKey it ∈ acc.map Prod.fst
  · rw [if_pos hm]; exact h
  · rw [if_neg hm]
    simpa using List.Nodup.append h (by simp) (by simpa using hm)

/-- Every entry after an upsert is an old entry that the new record did
not strictly beat, or the new record under its company key having
strictly beaten every old entry of that key. -/
theorem upsertLatest_spec (it : RecordItem) :
    ∀ acc : List (String × RecordItem),
      (acc.map Prod.fst).Nodup →
      ∀ e ∈ upsertLatest acc it,
        (e ∈ acc ∧ (e.1 = companyKey it →
          optGt (recTime it) (recTime e.2) = false)) ∨
        (e = (companyKey it, it) ∧
          ∀ e2 ∈ acc, e2.1 = companyKey it →
            optGt (recTime it) (recTime e2.2) = true) := by
  intro acc
  induction acc with
  | nil =>
    intro _ e he
    rw [upsertLatest] at he
    rcases List.mem_singleton.mp he with rfl
    exact Or.inr ⟨rfl, by simp⟩
  | cons a rest ih =>
    intro hnd e he
    obtain ⟨c, e0⟩ := a
    have hnd2 := List.nodup_cons.mp
      (show ((c, e).1 :: rest.map Prod.fst).Nodup from hnd)
    have hcrest : c ∉ rest.map Prod.fst := hnd2.1
    have hndrest : (rest.map Prod.fst).Nodup := hnd2.2
    rw [upsertLatest] at he
    by_cases h : c = companyKey it
    · rw [if_pos h] at he
      by_cases hg : optGt (recTime it) (recTime e0) = true
      · rw [if_pos hg] at he
        rcases List.mem_cons.mp he with he1 | he2
        · refine Or.inr ⟨by rw [he1, h], ?_⟩
          intro e2 he2 hk2
          rcases List.mem_cons.mp he2 with he3 | he4
          · rw [he3]
            exact hg
          · exfalso
            have hm := List.mem_map_of_mem Prod.fst he4
            rw [hk2, ← h] at hm
            exact hcrest hm
        · refine Or.inl ⟨by simp [he2], ?_⟩
          intro hk
          exfalso
          have hm := List.mem_map_of_mem Prod.fst he2
          rw [hk, ← h] at hm
          exact hcrest hm
      · rw [if_neg hg] at he
        rcases List.mem_cons.mp he with he1 | he2
        · refine Or.inl ⟨by simp [he1], ?_⟩
          intro _
          rw [he1]
          exact Bool.not_eq_true _ ▸ hg
        · refine Or.inl ⟨by simp [he2], ?_⟩
          intro hk
          exfalso
          have hm := List.mem_map_of_mem Prod.fst he2
          rw [hk, ← h] at hm
          exact hcrest hm
    · rw [if_neg h] at he
      rcases List.mem_cons.mp he with he1 | he2
      · refine Or.inl ⟨by simp [he1], ?_⟩
        intro hk
        rw [he1] at hk
        exact absurd hk h
      · rcases ih hndrest e he2 with ⟨hin, himp⟩ | ⟨heq, hall⟩
        · exact Or.inl ⟨by simp [hin], himp⟩
        · refine Or.inr ⟨heq, ?_⟩
          intro e2 he3 hk2
          rcases List.mem_cons.mp he3 with he4 | he5
          · exfalso
            rw [he4] at hk2
            exact h hk2
          · exact hall e2 he5 hk2

/-- The running invariant of the latestPerCompany fold. -/
def DedupInv (processed : List RecordItem)
    (acc : List (String × RecordItem)) : Prop :=
  (acc.map Prod.fst).Nodup ∧
  (∀ e ∈ acc, e.1 = companyKey e.2 ∧ e.2 ∈ processed ∧
    ∀ r ∈ processed, companyKey r = e.1 →
      optGt (recTime r) (recTime e.2) = false) ∧
  (∀ r ∈ processed, companyKey r ∈ acc.map Prod.fst)

theorem dedupInv_step (processed : List RecordItem)
    (acc : List (String × RecordItem)) (it : RecordItem)
    (h : DedupInv processed acc) :
    DedupInv (processed ++ [it]) (upsertLatest acc it) := by
  obtain ⟨hnd, hent, hcov⟩ := h
  refine ⟨nodup_keys_upsertLatest it acc hnd, ?_, ?_⟩
  · intro e he
    rcases upsertLatest_spec it acc hnd e he with ⟨hin, himp⟩ | ⟨heq, hall⟩
    · obtain ⟨hk, hp, hmax⟩ := hent e hin
      refine ⟨hk, by simp [hp], ?_⟩
      intro r hr hkr
      rcases List.mem_append.mp hr with hr1 | hr2
      · exact hmax r hr1 hkr
      · rcases List.mem_singleton.mp hr2 with rfl
        exact himp hkr.symm
    · rw [heq]
      refine ⟨rfl, by simp, ?_⟩
      intro r hr hkr
      rcases List.mem_append.mp hr with hr1 | hr2
      · obtain ⟨e2, he2, hke2⟩ := List.mem_map.mp (hcov r hr1)
        obtain ⟨hk2, _, hmax2⟩ := hent e2 he2
        have hbeat : optGt (recTime it) (recTime e2.2) = true :=
          hall e2 he2 (hke2.trans hkr)
        have hnb : optGt (recTime r) (recTime e2.2) = false :=
          hmax2 r hr1 hke2.symm
        cases htr : recTime r with
        | none => rfl
        | some a =>
          show optGt (some a) (recTime it) = false
          cases hti : recTime it with
          | none => rfl
          | some ti =>
            cases hte2 : recTime e2.2 with
            | none =>
              rw [hti, hte2] at hbeat
              exact absurd hbeat (by simp [optGt])
            | some b =>
              rw [htr, hte2] at hnb
              rw [hti, hte2] at hbeat
              simp only [optGt] at hnb hbeat ⊢
              simp only [decide_eq_true_eq, decide_eq_false_iff_not] at hnb hbeat ⊢
              omega
      · rcases List.mem_singleton.mp hr2 with rfl
        exact optGt_self _
  · intro r hr
    rw [keys_upsertLatest]
    rcases List.mem_append.mp hr with hr1 | hr2
    · have := hcov r hr1
      by_cases hm : companyKey it ∈ acc.map Prod.fst
      · rw [if_pos hm]; exact this
      · rw [if_neg hm]; simp [this]
    · rcases List.mem_singleton.mp hr2 with rfl
      by_cases hm : companyKey r ∈ acc.map Prod.fst
      · rw [if_pos hm]; exact hm
      · rw [if_neg hm]; simp

theorem dedupInv_fold (items : List RecordItem) :
    DedupInv items (items.foldl upsertLatest []) := by
  suffices h : ∀ (l2 : List RecordItem) (processed : List RecordItem)
      (acc : List (String × RecordItem)), DedupInv processed acc →
      DedupInv (processed ++ l2) (l2.foldl upsertLatest acc) by
    simpa using h items [] [] ⟨by simp, by simp, by simp⟩
  intro l2
  induction l2 with
  | nil => intro p acc h; simpa using h
  | cons z zs ih =>
    intro p acc h
    rw [List.foldl_cons]
    have := ih (p ++ [z]) (upsertLatest acc z) (dedupInv_step p acc z h)
    simpa using this


/-- The deduplicated view: keys distinct, every survivor an input
record not strictly beaten within its key, every key represented. -/
theorem latestPerCompany_spec (items : List RecordItem) :
    ((latestPerCompany items).map companyKey).Nodup ∧
    (∀ s ∈ latestPerCompany items, s ∈ items ∧
      ∀ r ∈ items, companyKey r = companyKey s →
        optGt (recTime r) (recTime s) = false) ∧
    (∀ r ∈ items, ∃ s, s ∈ latestPerCompany items ∧
      companyKey s = companyKey r) := by
  obtain ⟨hnd, hent, hcov⟩ := dedupInv_fold items
  have hperm : List.Perm (latestPerCompany items)
      ((items.foldl upsertLatest []).map (fun e => e.2)) :=
    perm_sortByJs _ _
  refine ⟨?_, ?_, ?_⟩
  · have hmapeq : ((items.foldl upsertLatest []).map (fun e => e.2)).map
        companyKey = (items.foldl upsertLatest []).map Prod.fst := by
      rw [List.map_map]
      exact List.map_congr_left (fun e he => ((hent e he).1).symm)
    have := (hperm.map companyKey).nodup_iff
    rw [this, hmapeq]
    exact hnd
  · intro s hs
    obtain ⟨e, he, hes⟩ := List.mem_map.mp (hperm.mem_iff.mp hs)
    obtain ⟨hk, hp, hmax⟩ := hent e he
    refine ⟨hes ▸ hp, ?_⟩
    intro r hr hkr
    have := hmax r hr (by rw [hkr, ← hes, ← hk])
    rw [← hes]
    exact this
  · intro r hr
    obtain ⟨e, he, hke⟩ := List.mem_map.mp (hcov r hr)
    refine ⟨e.2, hperm.mem_iff.mpr (List.mem_map_of_mem _ he), ?_⟩
    rw [← (hent e he).1, hke]

/-- With every time parseable the deduplicated view is emitted in
descending time order. -/
theorem latestPerCompany_sorted (items : List RecordItem)
    (h : ∀ r ∈ items, (recTime r).isSome = true) :
    (latestPerCompany items).Pairwise
      (fun a b => (recTime b).getD 0 ≤ (recTime a).getD 0) := by
  obtain ⟨_, hent, _⟩ := dedupInv_fold items
  refine pairwise_sortByJs
    (fun x y => optGt (recTime x) (recTime y))
    (fun a b => (recTime b).getD 0 ≤ (recTime a).getD 0)
    (fun x => (recTime x).isSome = true) ?_ ?_ ?_ _ ?_
  · intro a b ha hb hl
    have hl2 : optGt (recTime a) (recTime b) = true := hl
    show (recTime b).getD 0 ≤ (recTime a).getD 0
    obtain ⟨ta, hta⟩ := Option.isSome_iff_exists.mp ha
    obtain ⟨tb, htb⟩ := Option.isSome_iff_exists.mp hb
    rw [hta, htb] at hl2 ⊢
    simp only [optGt, decide_eq_true_eq] at hl2
    simp
    omega
  · intro a b ha hb hl
    have hl2 : optGt (recTime a) (recTime b) = false := hl
    show (recTime a).getD 0 ≤ (recTime b).getD 0
    obtain ⟨ta, hta⟩ := Option.isSome_iff_exists.mp ha
    obtain ⟨tb, htb⟩ := Option.isSome_iff_exists.mp hb
    rw [hta, htb] at hl2 ⊢
    simp only [optGt, decide_eq_false_iff_not] at hl2
    simp
    omega
  · intro a b c _ _ _ h1 h2
    omega
  · intro y hy
    obtain ⟨e, he, hey⟩ := List.mem_map.mp hy
    exact h y (hey ▸ (hent e he).2.1)

/-- The first C4 AcmeCo record, received March 5. -/
def c4AcmeT1 : RecordItem :=
  ⟨"c4a", "PO a", none, "2024-03-05T00:00:00Z", "", "",
    ⟨none, none, none, none, none, none, some "AcmeCo", none, none, none,
      none⟩⟩

/-- The second C4 AcmeCo record, received March 6. -/
def c4AcmeT2 : RecordItem :=
  ⟨"c4b", "PO b", none, "2024-03-06T00:00:00Z", "", "",
    ⟨none, none, none, none, none, none, some "AcmeCo", none, none, none,
      none⟩⟩

/-- An AcmeCo record with an unparseable timestamp. -/
def c4BadDate : RecordItem :=
  ⟨"c4c", "PO c", none, "not a date", "", "",
    ⟨none, none, none, none, none, none, some "AcmeCo", none, none, none,
      none⟩⟩

/-- C4 counterexample: an AcmeCo record with an unparseable timestamp
encountered first survives over a later AcmeCo record with a real,
strictly greater timestamp (the NaN comparison never replaces), so the
survivor is not a record with the maximum received timestamp. -/
theorem claim_C4_counterexample :
    companyKey c4BadDate = companyKey c4AcmeT2 ∧
    recTime c4BadDate = none ∧
    recTime c4AcmeT2 = some 1709683200000 ∧
    latestPerCompany [c4BadDate, c4AcmeT2] = [c4BadDate] := by
  exact ⟨by decide, by decide, by decide, by decide⟩

/-- C4 amended: over a group whose records all have a parseable (or
empty, epoch-coerced) received timestamp, the deduplicated view keeps
at most one record per company key, each survivor is an input record of
maximal time for its key, every key is represented, and the view is
sorted by time descending; in particular of two AcmeCo records at
March 5 and March 6 only the later survives. -/
theorem claim_C4_company_dedup :
    (∀ items : List RecordItem,
      (∀ r ∈ items, (recTime r).isSome = true) →
      ((latestPerCompany items).map companyKey).Nodup ∧
      (∀ s ∈ latestPerCompany items, s ∈ items ∧
        ∀ r ∈ items, companyKey r = companyKey s →
          (recTime r).getD 0 ≤ (recTime s).getD 0) ∧
      (∀ r ∈ items, ∃ s, s ∈ latestPerCompany items ∧
        companyKey s = companyKey r) ∧
      (latestPerCompany items).Pairwise
        (fun a b => (recTime b).getD 0 ≤ (recTime a).getD 0)) ∧
    latestPerCompany [c4AcmeT1, c4AcmeT2] = [c4AcmeT2] := by
  constructor
  · intro items h
    obtain ⟨hnd, hsur, hcov⟩ := latestPerCompany_spec items
    refine ⟨hnd, ?_, hcov, latestPerCompany_sorted items h⟩
    intro s hs
    obtain ⟨hin, hmax⟩ := hsur s hs
    refine ⟨hin, ?_⟩
    intro r hr hkr
    have hgt := hmax r hr hkr
    obtain ⟨tr, htr⟩ := Option.isSome_iff_exists.mp (h r hr)
    obtain ⟨ts, hts⟩ := Option.isSome_iff_exists.mp (h s hin)
    rw [htr, hts] at hgt ⊢
    simp only [optGt, decide_eq_false_iff_not] at hgt
    simpa using hgt
  · decide

/-- C4 witness: the amended claim at the concrete two-record AcmeCo
group. -/
theorem claim_C4_company_dedup_witness :
    ((latestPerCompany [c4AcmeT1, c4AcmeT2]).map companyKey).Nodup ∧
    (latestPerCompany [c4AcmeT1, c4AcmeT2]).Pairwise
      (fun a b => (recTime b).getD 0 ≤ (recTime a).getD 0) :=
  ⟨(claim_C4_company_dedup.1 [c4AcmeT1, c4AcmeT2] (by decide)).1,
   (claim_C4_company_dedup.1 [c4AcmeT1, c4AcmeT2] (by decide)).2.2.2⟩

/-- The first C5 record. -/
def c5RecA : RecordItem :=
  ⟨"c5a", "PO a", none, "2024-03-05T00:00:00Z", "", "",
    ⟨none, none, none, none, none, none, some "AcmeCo", none, none, none,
      none⟩⟩

/-- The second C5 record, same company and timestamp, different id. -/
def c5RecB : RecordItem :=
  ⟨"c5b", "PO b", none, "2024-03-05T00:00:00Z", "", "",
    ⟨none, none, none, none, none, none, some "AcmeCo", none, none, none,
      none⟩⟩

/-- C5 counterexample: on two same-company records with equal
timestamps the dedup keeps the first-encountered record, not the
later-encountered one the claim names. -/
theorem claim_C5_counterexample :
    companyKey c5RecA = companyKey c5RecB ∧
    recTime c5RecA = recTime c5RecB ∧
    c5RecA ≠ c5RecB ∧
    latestPerCompany [c5RecA, c5RecB] = [c5RecA] := by
  exact ⟨by decide, by decide, by decide, by decide⟩

/-- C5 amended: when two records of one candidate group share the
company key and have equal received timestamps, the earlier-encountered
record is the one kept, whichever record comes first. -/
theorem claim_C5_tie_keeps_first (r1 r2 : RecordItem) (t : Int)
    (hk : companyKey r2 = companyKey r1)
    (h1 : recTime r1 = some t) (h2 : recTime r2 = some t) :
    latestPerCompany [r1, r2] = [r1] := by
  rw [latestPerCompany]
  have hstep1 : upsertLatest [] r1 = [(companyKey r1, r1)] := rfl
  have hstep2 : upsertLatest [(companyKey r1, r1)] r2 =
      [(companyKey r1, r1)] := by
    rw [upsertLatest, if_pos hk.symm, h1, h2,
      if_neg (by simp [optGt_self])]
  rw [show [r1, r2].foldl upsertLatest [] =
    upsertLatest (upsertLatest [] r1) r2 from rfl, hstep1, hstep2]
  rfl

/-- C5 witness: the amended claim at the concrete equal-time pair. -/
theorem claim_C5_tie_keeps_first_witness :
    latestPerCompany [c5RecA, c5RecB] = [c5RecA] :=
  claim_C5_tie_keeps_first c5RecA c5RecB 1709596800000 (by decide)
    (by decide) (by decide)


/-! ## Support statistics: presence lemmas -/

/-- Bumping some name keeps any positively counted name positive. -/
theorem bumpCount_preserves (n2 n : String) :
    ∀ acc : List (String × Nat),
      (∃ e ∈ acc, e.1 = n ∧ 1 ≤ e.2) →
      ∃ e ∈ bumpCount acc n2, e.1 = n ∧ 1 ≤ e.2 := by
  intro acc
  induction acc with
  | nil => intro h; simp at h
  | cons a rest ih =>
    intro ⟨e, he, hn, hc⟩
    obtain ⟨am, ac⟩ := a
    rw [bumpCount]
    by_cases h : am = n2
    · rw [if_pos h]
      rcases List.mem_cons.mp he with he1 | he2
      · exact ⟨(am, ac + 1), by simp, by rw [← hn, he1], by omega⟩
      · exact ⟨e, by simp [he2], hn, hc⟩
    · rw [if_neg h]
      rcases List.mem_cons.mp he with he1 | he2
      · exact ⟨(am, ac), by simp, by rw [← hn, he1], by
          have : e.2 = ac := by rw [he1]
          omega⟩
      · obtain ⟨e2, he3, hn2, hc2⟩ := ih ⟨e, he2, hn, hc⟩
        exact ⟨e2, by simp [he3], hn2, hc2⟩

/-- After bumping a name its count is positive. -/
theorem bumpCount_pos (n : String) :
    ∀ acc : List (String × Nat),
      ∃ e ∈ bumpCount acc n, e.1 = n ∧ 1 ≤ e.2 := by
  intro acc
  induction acc with
  | nil => exact ⟨(n, 1), by simp [bumpCount], rfl, by omega⟩
  | cons a rest ih =>
    obtain ⟨am, ac⟩ := a
    rw [bumpCount]
    by_cases h : am = n
    · rw [if_pos h]
      exact ⟨(am, ac + 1), by simp, h, by omega⟩
    · rw [if_neg h]
      obtain ⟨e2, he2, hn2, hc2⟩ := ih
      exact ⟨e2, by simp [he2], hn2, hc2⟩

/-- The record counting fold keeps a positive count for the support
name of every passing record. -/
theorem counts_fold_pos (y m : String) (r : RecordItem)
    (hp : passesPeriodFilter y m r = true) :
    ∀ (l2 : List RecordItem) (acc : List (String × Nat)),
      (r ∈ l2 ∨ ∃ e ∈ acc, e.1 = supName r ∧ 1 ≤ e.2) →
      ∃ e ∈ l2.foldl (fun acc2 r2 =>
          if passesPeriodFilter y m r2 then bumpCount acc2 (supName r2)
          else acc2) acc,
        e.1 = supName r ∧ 1 ≤ e.2 := by
  intro l2
  induction l2 with
  | nil =>
    intro acc h
    rcases h with h1 | h2
    · simp at h1
    · simpa using h2
  | cons z zs ih =>
    intro acc h
    rw [List.foldl_cons]
    rcases h with h1 | h2
    · rcases List.mem_cons.mp h1 with rfl | hzs
      · refine ih _ (Or.inr ?_)
        rw [if_pos hp]
        exact bumpCount_pos (supName r) acc
      · exact ih _ (Or.inl hzs)
    · refine ih _ (Or.inr ?_)
      by_cases hz : passesPeriodFilter y m z = true
      · rw [if_pos hz]
        exact bumpCount_preserves (supName z) (supName r) acc h2
      · rw [if_neg hz]
        exact h2

/-- Adding a candidate keeps any present name-candidate pair present. -/
theorem addCandidate_preserves (n2 c2 n c : String) :
    ∀ acc : List (String × List String),
      (∃ e ∈ acc, e.1 = n ∧ c ∈ e.2) →
      ∃ e ∈ addCandidate acc n2 c2, e.1 = n ∧ c ∈ e.2 := by
  intro acc
  induction acc with
  | nil => intro h; simp at h
  | cons a rest ih =>
    intro ⟨e, he, hn, hc⟩
    obtain ⟨am, acs⟩ := a
    rw [addCandidate]
    by_cases h : am = n2
    · rw [if_pos h]
      rcases List.mem_cons.mp he with he1 | he2
      · refine ⟨(am, if acs.contains c2 then acs else acs ++ [c2]),
          by simp, by rw [← hn, he1], ?_⟩
        have hce : c ∈ acs := by
          have : e.2 = acs := by rw [he1]
          rw [← this]
          exact hc
        by_cases hin : acs.contains c2
        · rw [if_pos hin]; exact hce
        · rw [if_neg hin]; exact List.mem_append_left _ hce
      · exact ⟨e, by simp [he2], hn, hc⟩
    · rw [if_neg h]
      rcases List.mem_cons.mp he with he1 | he2
      · exact ⟨(am, acs), by simp, by rw [← hn, he1], by
          have : e.2 = acs := by rw [he1]
          rw [← this]; exact hc⟩
      · obtain ⟨e2, he3, hn2, hc2⟩ := ih ⟨e, he2, hn, hc⟩
        exact ⟨e2, by simp [he3], hn2, hc2⟩

/-- After adding a candidate it is present under its name. -/
theorem addCandidate_present (n c : String) :
    ∀ acc : List (String × List String),
      ∃ e ∈ addCandidate acc n c, e.1 = n ∧ c ∈ e.2 := by
  intro acc
  induction acc with
  | nil => exact ⟨(n, [c]), by simp [addCandidate], rfl, by simp⟩
  | cons a rest ih =>
    obtain ⟨am, acs⟩ := a
    rw [addCandidate]
    by_cases h : am = n
    · rw [if_pos h]
      refine ⟨(am, if acs.contains c then acs else acs ++ [c]),
        by simp, h, ?_⟩
      by_cases hin : acs.contains c
      · rw [if_pos hin]
        obtain ⟨a2, ha3, ha4⟩ := List.contains_iff_exists_mem_beq.mp hin
        rwa [show c = a2 from by simpa using ha4] 
      · rw [if_neg hin]
        exact List.mem_append_right _ (by simp)
    · rw [if_neg h]
      obtain ⟨e2, he2, hn2, hc2⟩ := ih
      exact ⟨e2, by simp [he2], hn2, hc2⟩

/-- The candidate fold keeps the candidate of every passing record
attributed to its support name. -/
theorem candidates_fold_present (y m : String) (r : RecordItem)
    (hp : passesPeriodFilter y m r = true) :
    ∀ (l2 : List RecordItem) (acc : List (String × List String)),
      (r ∈ l2 ∨ ∃ e ∈ acc, e.1 = supName r ∧ candName r ∈ e.2) →
      ∃ e ∈ l2.foldl (fun acc2 r2 =>
          if passesPeriodFilter y m r2 then
            addCandidate acc2 (supName r2) (candName r2)
          else acc2) acc,
        e.1 = supName r ∧ candName r ∈ e.2 := by
  intro l2
  induction l2 with
  | nil =>
    intro acc h
    rcases h with h1 | h2
    · simp at h1
    · simpa using h2
  | cons z zs ih =>
    intro acc h
    rw [List.foldl_cons]
    rcases h with h1 | h2
    · rcases List.mem_cons.mp h1 with rfl | hzs
      · refine ih _ (Or.inr ?_)
        rw [if_pos hp]
        exact addCandidate_present (supName r) (candName r) acc
      · exact ih _ (Or.inl hzs)
    · refine ih _ (Or.inr ?_)
      by_cases hz : passesPeriodFilter y m z = true
      · rw [if_pos hz]
        exact addCandidate_preserves (supName z) (candName z)
          (supName r) (candName r) acc h2
      · rw [if_neg hz]
        exact h2

/-- A non-empty unparseable timestamp always passes the period
filter. -/
theorem passes_of_unparseable (y m : String) (r : RecordItem)
    (hne : r.receivedDateTime ≠ "")
    (hp : jsParseDate r.receivedDateTime = none) :
    passesPeriodFilter y m r = true := by
  rw [passesPeriodFilter, parseReceivedOr0, if_neg hne, hp]

/-! ## The C6 claim -/

/-- The C6 record with an empty received timestamp and support A. -/
def c6RecEmpty : RecordItem :=
  ⟨"c6a", "PO a", none, "", "", "",
    ⟨none, none, none, none, none, none, none, none, some "A", none,
      none⟩⟩

/-- The C6 record with a junk timestamp, support A, candidate Jane. -/
def c6RecJunk : RecordItem :=
  ⟨"c6b", "PO b", none, "junk date", "", "",
    ⟨some "Jane", none, none, none, none, none, none, none, some "A",
      none, none⟩⟩

/-- C6 counterexample: a record whose receivedDateTime is the empty
string does not parse, yet it is coerced to the epoch and excluded by a
2024 year filter, so its support person is not counted. -/
theorem claim_C6_counterexample :
    jsParseDate "" = none ∧
    supportCounts [c6RecEmpty] "2024" "All" = [] := by
  exact ⟨by decide, by decide⟩

/-- C6 amended: a record with a non-empty unparseable receivedDateTime
is included in the support counts and its candidate attributed under
every year and month filter; an empty timestamp is instead coerced to
the epoch and is subject to the filter as 1970-01. -/
theorem claim_C6_unparseable_included :
    ∀ (rs : List RecordItem) (y m : String) (r : RecordItem),
      r ∈ rs → r.receivedDateTime ≠ "" →
      jsParseDate r.receivedDateTime = none →
      (∃ row ∈ supportCounts rs y m, row.1 = supName r ∧ 1 ≤ row.2) ∧
      (∃ e ∈ supportCandidates rs y m, e.1 = supName r ∧
        candName r ∈ e.2) := by
  intro rs y m r hr hne hp
  have hpass := passes_of_unparseable y m r hne hp
  constructor
  · obtain ⟨e, he, hn, hc⟩ := counts_fold_pos y m r hpass rs []
      (Or.inl hr)
    refine ⟨e, ?_, hn, hc⟩
    rw [supportCounts]
    exact (perm_sortByJs _ _).mem_iff.mpr he
  · exact candidates_fold_present y m r hpass rs [] (Or.inl hr)

/-- C6 witness: the amended claim at a concrete junk-dated record under
an unrelated 2024-12 filter. -/
theorem claim_C6_unparseable_included_witness :
    (∃ row ∈ supportCounts [c6RecJunk] "2024" "12",
      row.1 = supName c6RecJunk ∧ 1 ≤ row.2) ∧
    (∃ e ∈ supportCandidates [c6RecJunk] "2024" "12",
      e.1 = supName c6RecJunk ∧ candName c6RecJunk ∈ e.2) :=
  claim_C6_unparseable_included [c6RecJunk] "2024" "12" c6RecJunk
    (by simp) (by decide) (by decide)

/-! ## The C9 claim -/

/-- The C9 record, received March 2024. -/
def c9Rec : RecordItem :=
  ⟨"c9a", "PO a", none, "2024-03-05T00:00:00Z", "", "",
    ⟨none, none, none, none, none, none, none, none, none, none, none⟩⟩

/-- C9 counterexample: with a record set whose latest period is
March 2024, one run of the seeding effect on filters explicitly at All
overrides them back to 2024/03, so an explicit All selection does not
stay. -/
theorem claim_C9_counterexample :
    latestPeriod [c9Rec] = ⟨"2024", "03"⟩ ∧
    seedEffect (latestPeriod [c9Rec]) "All" "All" = ⟨"2024", "03"⟩ := by
  exact ⟨by decide, by decide⟩

/-- C9 amended: the seeding effect re-runs on every recomputation; a
filter holding a non-All user choice is preserved, but a filter at All
is overridden to the latest period whenever that period is concrete. -/
theorem claim_C9_reseed (latest : PeriodPair) (y m : String) :
    (y ≠ "All" → (seedEffect latest y m).year = y) ∧
    (m ≠ "All" → (seedEffect latest y m).month = m) ∧
    (y = "All" → latest.year ≠ "All" →
      (seedEffect latest y m).year = latest.year) ∧
    (m = "All" → latest.month ≠ "All" →
      (seedEffect latest y m).month = latest.month) := by
  refine ⟨?_, ?_, ?_, ?_⟩
  · intro h
    rw [seedEffect]
    simp [h]
  · intro h
    rw [seedEffect]
    simp [h]
  · intro h1 h2
    rw [seedEffect]
    simp [h1, h2]
  · intro h1 h2
    rw [seedEffect]
    simp [h1, h2]

/-- C9 witness: the amended claim at concrete filter states. -/
theorem claim_C9_reseed_witness :
    (seedEffect ⟨"2024", "03"⟩ "2023" "07").year = "2023" ∧
    (seedEffect ⟨"2024", "03"⟩ "All" "07").year = "2024" :=
  ⟨(claim_C9_reseed ⟨"2024", "03"⟩ "2023" "07").1 (by decide),
   (claim_C9_reseed ⟨"2024", "03"⟩ "All" "07").2.2.1 rfl (by decide)⟩

end PlacementTracker
